import Mathlib

/-!
# Verification of the multithreaded Boyer-Moore substring finder

Shallow embedding of `src/substring_search.c`. Bytes are modelled as `Nat`
(values `0 ≤ b < 256` in intended use), machine `int` values as `Int` where
signedness matters, and a byte buffer as `List Nat`.

Two places in the C source can read memory outside the objects the program
owns, and both are modelled by explicit oracle parameters so that every
definition stays total and computable:

* `search` (line 116 of the source) indexes the 256-entry shift table with
  a plain `char`, which is signed: a text byte `≥ 128` yields a negative
  index, an out-of-bounds read.  The value such a read may return is the
  oracle `oobT : Int → Int`.
* `search_in_file` (lines 261-265, 290) sets the single-thread fallback
  chunk length to `textLength + textLength % 16`, so the scan can read
  bytes past the end of the buffer.  Bytes beyond the modelled byte list
  are the oracle `oobM : Nat → Nat`.

A theorem quantifying over the oracles holds regardless of what the
out-of-bounds memory contains; a concrete oracle instantiation exhibits one
possible behaviour.
-/

namespace SubstringSearch

/-- Conversion a C `char` (signed, 8-bit) applies to a byte value before it
is used as an array index: bytes `128..255` become the negative values
`-128..-1`.  This models the missing `(unsigned char)` cast at line 116 of
the source. -/
def signedChar (c : Nat) : Int :=
  if c % 256 < 128 then ((c % 256 : Nat) : Int) else ((c % 256 : Nat) : Int) - 256

/-- Reading `t[idx]` from a C `int` array of length `t.length`: in-bounds
indices return the stored entry, any other index is an out-of-bounds read
whose result is the oracle `oob`. -/
def tableRead (t : List Int) (oob : Int → Int) (idx : Int) : Int :=
  if h : 0 ≤ idx ∧ idx.toNat < t.length then t.get ⟨idx.toNat, h.2⟩ else oob idx

/-- The filling loop of `generateBadCharacterShiftTable` (source lines
163-166): for `i` from the current index upward, set
`table[(unsigned char) pattern[i]] = i`. -/
def fillShiftTable (t : List Int) (p : List Nat) (i : Nat) : List Int :=
  match p with
  | [] => t
  | b :: rest => fillShiftTable (t.set (b % 256) (i : Int)) rest (i + 1)

/-- `generateBadCharacterShiftTable` (source lines 146-167): 256 entries
initialised to `-1`, then each pattern byte's entry is overwritten with its
index, leaving the rightmost occurrence. -/
def generateBadCharacterShiftTable (p : List Nat) : List Int :=
  fillShiftTable (List.replicate 256 (-1)) p 0

/-- The shift update of `search` (source line 116):
`patternShift += max(1, patternIndex - badCharShiftTable[text[...]])`. -/
def advanceShift (shift j : Nat) (entry : Int) : Nat :=
  shift + (max 1 ((j : Int) - entry)).toNat

/-- The inner comparison loop of `search` (source lines 90-99), comparing
pattern bytes against the text from index `j` downward.  Returns the
mismatch index (or `none` on a full match) together with the number of byte
comparisons performed. -/
def innerCmp (mem : Nat → Nat) (p : List Nat) (shift : Nat) : Nat → Option Nat × Nat
  | 0 => if p.getD 0 0 = mem shift then (none, 1) else (some 0, 1)
  | j + 1 =>
    if p.getD (j + 1) 0 = mem (shift + (j + 1)) then
      let r := innerCmp mem p shift j
      (r.1, r.2 + 1)
    else (some (j + 1), 1)

/-- One full pattern-position check of `search`: starts the inner loop at
`patternIndex = patternLength - 1`; an empty pattern skips the loop and
counts as an immediate full match (patternIndex `< 0` at once). -/
def innerScan (mem : Nat → Nat) (p : List Nat) (shift : Nat) : Option Nat × Nat :=
  if p.length = 0 then (none, 0) else innerCmp mem p shift (p.length - 1)

/-- The outer `while` loop of `search` (source lines 88-117), with explicit
fuel.  `none` means the fuel ran out (shown impossible for fuel
`n + 1`); `some (some s, c)` is a match at shift `s` after `c` byte
comparisons; `some (none, c)` is an unsuccessful scan.  The loop guard
`patternShift <= textLength - patternLength` over C ints is
`shift + p.length ≤ n` over naturals. -/
def bmLoop (mem : Nat → Nat) (n : Nat) (p : List Nat) (t : List Int) (oobT : Int → Int) :
    Nat → Nat → Nat → Option (Option Nat × Nat)
  | 0, _, _ => none
  | fuel + 1, shift, comps =>
    if shift + p.length ≤ n then
      match innerScan mem p shift with
      | (none, c) => some (some shift, comps + c)
      | (some j, c) =>
        bmLoop mem n p t oobT fuel
          (advanceShift shift j (tableRead t oobT (signedChar (mem (shift + j)))))
          (comps + c)
    else some (none, comps)

/-- The thread function `search` (source lines 61-126).  `mem` is the
memory visible from the thread's `text` pointer, `n` its `textLength`.
Returns the `found_at` result (`some shift`, or `none` for `-1`) and the
number of byte comparisons performed.  Fuel `n + 1` is shown sufficient
(`bmLoop_isSome`). -/
def search (mem : Nat → Nat) (n : Nat) (p : List Nat) (t : List Int)
    (oobT : Int → Int) : Option Nat × Nat :=
  match bmLoop mem n p t oobT (n + 1) 0 0 with
  | some r => r
  | none => (none, 0)

/-- Worker count chosen by `search_in_file` (source lines 256-265):
`MAX_THREADS = 16`, reduced to `1` when `textLength / 16 < patternLength`. -/
def numThreadsOf (n m : Nat) : Nat := if n / 16 < m then 1 else 16

/-- Chunk size chosen by `search_in_file`: `textLength / 16`, replaced by
the whole `textLength` in the single-thread fallback. -/
def chunkSizeOf (n m : Nat) : Nat := if n / 16 < m then n else n / 16

/-- Start offset of thread `k`'s chunk: `threadIndex * chunkSize`
(source line 289). -/
def chunkStart (n m k : Nat) : Nat := k * chunkSizeOf n m

/-- `textLength` passed to thread `k` (source line 290): the last thread
gets `chunkSize + extra` where `extra = textLength % 16`; note `extra` is
added even in the single-thread fallback, where `chunkSize` is already the
whole buffer. -/
def chunkLen (n m k : Nat) : Nat :=
  if k = numThreadsOf n m - 1 then chunkSizeOf n m + n % 16 else chunkSizeOf n m

/-- The byte at offset `i` from the base of the mapped buffer `b`:
in-bounds offsets read the buffer, anything past it is the out-of-bounds
oracle `oobM`. -/
def memOf (b : List Nat) (oobM : Nat → Nat) : Nat → Nat :=
  fun i => if h : i < b.length then b.get ⟨i, h⟩ else oobM i

/-- The scan thread `k` executes: `search` applied to the memory from
`fileContent + threadIndex * chunkSize` with thread `k`'s length. -/
def chunkScan (mem : Nat → Nat) (n : Nat) (p : List Nat) (t : List Int)
    (oobT : Int → Int) (k : Nat) : Option Nat × Nat :=
  search (fun i => mem (chunkStart n p.length k + i)) (chunkLen n p.length k) p t oobT

/-- The result-collection loop of `search_in_file` (source lines 315-329):
walk the per-thread results in thread-index order and return the first
`found_at >= 0` together with its thread index. -/
def firstFound : Nat → List (Option Nat × Nat) → Option (Nat × Nat)
  | _, [] => none
  | k, r :: rest =>
    match r.1 with
    | some l => some (k, l)
    | none => firstFound (k + 1) rest

/-- What `search_in_file` sends to the console after the mapping
succeeded.  The found and not-found messages carry exactly the data the
`printf` calls at source lines 326 and 332 format: the pattern (and the
elapsed time, which is not modelled).  Neither message contains an
offset. -/
inductive Output where
  | errFileEmpty : Output
  | errPatternEmpty : Output
  | tooLongMsg : Output
  | foundMsg : List Nat → Output
  | notFoundMsg : List Nat → Output
deriving DecidableEq

/-- Observable trace of one `search_in_file` run (after the file was
mapped): the console output, the `(threadIndex, found_at)` pair the
return at line 327 was taken on (`none` when no thread found the pattern),
the total number of byte comparisons the dispatched scans perform, whether
the shift table was built, how many worker threads were started, and
whether `UnmapViewOfFile`/`CloseHandle` ran before the function
returned. -/
structure SIFTrace where
  output : Output
  found : Option (Nat × Nat)
  comparisons : Nat
  tableBuilt : Bool
  dispatched : Nat
  released : Bool
deriving DecidableEq

/-- `search_in_file` from the validation checks onward (source lines
226-338), given the memory visible from the `fileContent` pointer and the
`strlen` result `n`.  Follows the source path by path: the three
validation returns (lines 231-245) happen before the table is built and
release nothing; the found return (line 327) releases nothing; only the
fall-through not-found exit (lines 331-337) unmaps and closes. -/
def searchCore (mem : Nat → Nat) (n : Nat) (p : List Nat) (oobT : Int → Int) : SIFTrace :=
  if n = 0 then ⟨.errFileEmpty, none, 0, false, 0, false⟩
  else if p.length = 0 then ⟨.errPatternEmpty, none, 0, false, 0, false⟩
  else if n < p.length then ⟨.tooLongMsg, none, 0, false, 0, false⟩
  else
    let t := generateBadCharacterShiftTable p
    let nt := numThreadsOf n p.length
    let results := (List.range nt).map (chunkScan mem n p t oobT)
    let comps := (results.map Prod.snd).sum
    match firstFound 0 results with
    | some (k, l) => ⟨.foundMsg p, some (k, l), comps, true, nt, false⟩
    | none => ⟨.notFoundMsg p, none, comps, true, nt, true⟩

/-- `search_in_file` on a buffer `b` whose `strlen` is `b.length`
(a NUL-free byte list); memory past the buffer is the oracle `oobM`. -/
def searchBuffer (b p : List Nat) (oobM : Nat → Nat) (oobT : Int → Int) : SIFTrace :=
  searchCore (memOf b oobM) b.length p oobT

/-- `strlen(fileContent)` (source line 227): the number of bytes before
the first NUL byte of the mapped content.  (The model assumes the mapped
content contains a NUL; a content list without one stands for a mapping
whose NUL sits right after the listed bytes.) -/
def effLen (content : List Nat) : Nat := (content.takeWhile (fun x => x != 0)).length

/-- `search_in_file` on the full mapped file content: the searched length
is `strlen`, but the scans read through `memOf content`, i.e. bytes after
the first NUL are still real file bytes. -/
def searchInFile (content p : List Nat) (oobM : Nat → Nat) (oobT : Int → Int) : SIFTrace :=
  searchCore (memOf content oobM) (effLen content) p oobT

/-- `p` occurs in `b` at offset `i`. -/
def occursAt (b p : List Nat) (i : Nat) : Prop :=
  i + p.length ≤ b.length ∧ ∀ j < p.length, p.getD j 0 = b.getD (i + j) 0

instance (b p : List Nat) (i : Nat) : Decidable (occursAt b p i) :=
  decidable_of_iff
    (i + p.length ≤ b.length ∧ ∀ j < p.length, p.getD j 0 = b.getD (i + j) 0) Iff.rfl

/-- An occurrence at offset `i` lies fully within one of the chunks the
coordinator creates for a buffer of length `n` and a pattern of length
`m` (i.e. it does not straddle a chunk boundary). -/
def nonStraddling (n m i : Nat) : Prop :=
  ∃ k, k < numThreadsOf n m ∧ chunkStart n m k ≤ i ∧
    i + m ≤ chunkStart n m k + chunkLen n m k

instance (n m i : Nat) : Decidable (nonStraddling n m i) :=
  decidable_of_iff
    (∃ k, k < numThreadsOf n m ∧ chunkStart n m k ≤ i ∧
      i + m ≤ chunkStart n m k + chunkLen n m k) Iff.rfl

/-- `p` matches the memory `mem` at position `i` (pointwise byte
equality over the pattern length). -/
def matchAt (mem : Nat → Nat) (p : List Nat) (i : Nat) : Prop :=
  ∀ j < p.length, p.getD j 0 = mem (i + j)

/-- Modelled from the spec: the ShiftTable invariant, "entry for byte `b`
equals `max { i : pattern[i] == b }` or sentinel `-1`".  `specRightmostIdx`
computes the greatest index at which a byte occurs in the pattern, for
comparison with the table the source builds. -/
def specRightmostIdx (p : List Nat) (c : Nat) : Option Nat :=
  match p with
  | [] => none
  | b :: rest =>
    match specRightmostIdx rest c with
    | some j => some (j + 1)
    | none => if b % 256 = c then some 0 else none

end SubstringSearch

set_option maxRecDepth 100000

namespace SubstringSearch

/-! ## Lemmas about the inner comparison loop -/

theorem innerCmp_fst_none (mem : Nat → Nat) (p : List Nat) (s : Nat) :
    ∀ J, (∀ j, j ≤ J → p.getD j 0 = mem (s + j)) → (innerCmp mem p s J).1 = none := by
  intro J
  induction J with
  | zero =>
    intro h
    have h0 : p.getD 0 0 = mem s := by simpa using h 0 (Nat.le_refl 0)
    rw [innerCmp, if_pos h0]
  | succ J ih =>
    intro h
    have hJ1 : p.getD (J + 1) 0 = mem (s + (J + 1)) := h (J + 1) (Nat.le_refl _)
    rw [innerCmp, if_pos hJ1]
    exact ih fun j hj => h j (Nat.le_trans hj (Nat.le_succ J))

theorem innerCmp_fst_some (mem : Nat → Nat) (p : List Nat) (s : Nat) :
    ∀ J j, (innerCmp mem p s J).1 = some j → j ≤ J ∧ p.getD j 0 ≠ mem (s + j) := by
  intro J
  induction J with
  | zero =>
    intro j hj
    by_cases h : p.getD 0 0 = mem s
    · rw [innerCmp, if_pos h] at hj
      exact Option.noConfusion hj
    · rw [innerCmp, if_neg h] at hj
      obtain rfl : 0 = j := Option.some.inj hj
      exact ⟨Nat.le_refl 0, by simpa using h⟩
  | succ J ih =>
    intro j hj
    by_cases h : p.getD (J + 1) 0 = mem (s + (J + 1))
    · rw [innerCmp, if_pos h] at hj
      obtain ⟨h1, h2⟩ := ih j hj
      exact ⟨Nat.le_trans h1 (Nat.le_succ J), h2⟩
    · rw [innerCmp, if_neg h] at hj
      obtain rfl : J + 1 = j := Option.some.inj hj
      exact ⟨Nat.le_refl _, h⟩

theorem innerCmp_all_eq_of_none (mem : Nat → Nat) (p : List Nat) (s : Nat) :
    ∀ J, (innerCmp mem p s J).1 = none → ∀ j, j ≤ J → p.getD j 0 = mem (s + j) := by
  intro J
  induction J with
  | zero =>
    intro hc j hj
    by_cases h : p.getD 0 0 = mem s
    · interval_cases j
      simpa using h
    · rw [innerCmp, if_neg h] at hc
      exact Option.noConfusion hc
  | succ J ih =>
    intro hc j hj
    by_cases h : p.getD (J + 1) 0 = mem (s + (J + 1))
    · rw [innerCmp, if_pos h] at hc
      rcases Nat.lt_or_ge j (J + 1) with hlt | hge
      · exact ih hc j (Nat.lt_succ_iff.mp hlt)
      · obtain rfl : j = J + 1 := Nat.le_antisymm hj hge
        exact h
    · rw [innerCmp, if_neg h] at hc
      exact Option.noConfusion hc

theorem innerCmp_fst_some_of_ne (mem : Nat → Nat) (p : List Nat) (s J : Nat)
    (h : ∃ j, j ≤ J ∧ p.getD j 0 ≠ mem (s + j)) :
    ∃ j, (innerCmp mem p s J).1 = some j := by
  cases hc : (innerCmp mem p s J).1 with
  | none =>
    obtain ⟨j, hj, hne⟩ := h
    exact absurd (innerCmp_all_eq_of_none mem p s J hc j hj) hne
  | some j => exact ⟨j, rfl⟩

theorem innerScan_fst_none_of_match (mem : Nat → Nat) (p : List Nat) (s : Nat)
    (h : matchAt mem p s) : (innerScan mem p s).1 = none := by
  unfold innerScan
  by_cases hm : p.length = 0
  · simp [hm]
  · rw [if_neg hm]
    exact innerCmp_fst_none mem p s (p.length - 1) fun j hj => h j (by omega)

theorem innerScan_some_of_not_match (mem : Nat → Nat) (p : List Nat) (s : Nat)
    (hm : 0 < p.length) (h : ¬ matchAt mem p s) :
    ∃ j, (innerScan mem p s).1 = some j ∧ j < p.length ∧ p.getD j 0 ≠ mem (s + j) := by
  unfold matchAt at h
  push_neg at h
  obtain ⟨j0, hj0, hne0⟩ := h
  unfold innerScan
  rw [if_neg (Nat.pos_iff_ne_zero.mp hm)]
  obtain ⟨j, hj⟩ := innerCmp_fst_some_of_ne mem p s (p.length - 1) ⟨j0, by omega, hne0⟩
  obtain ⟨h1, h2⟩ := innerCmp_fst_some mem p s (p.length - 1) j hj
  exact ⟨j, hj, by omega, h2⟩

theorem matchAt_of_innerScan_none (mem : Nat → Nat) (p : List Nat) (s : Nat)
    (h : (innerScan mem p s).1 = none) : matchAt mem p s := by
  unfold innerScan at h
  by_cases hm : p.length = 0
  · intro j hj
    omega
  · rw [if_neg hm] at h
    intro j hj
    exact innerCmp_all_eq_of_none mem p s (p.length - 1) h j (by omega)

/-! ## Lemmas about the shift table -/

theorem getD_set_self (l : List Int) (i : Nat) (v : Int) (h : i < l.length) :
    (l.set i v).getD i 0 = v := by
  rw [List.getD_eq_getD_get?, List.get?_set_eq_of_lt _ h]
  rfl

theorem getD_set_other (l : List Int) (i j : Nat) (v : Int) (h : i ≠ j) :
    (l.set i v).getD j 0 = l.getD j 0 := by
  rw [List.getD_eq_getD_get?, List.get?_set_ne _ _ h, ← List.getD_eq_getD_get?]

theorem fillShiftTable_length (p : List Nat) :
    ∀ t i, (fillShiftTable t p i).length = t.length := by
  induction p with
  | nil => intro t i; rfl
  | cons b rest ih =>
    intro t i
    rw [fillShiftTable, ih, List.length_set]

theorem fillShiftTable_getD (p : List Nat) :
    ∀ (t : List Int) (i c : Nat), c < t.length →
      (fillShiftTable t p i).getD c 0 =
        match specRightmostIdx p c with
        | some j => ((i + j : Nat) : Int)
        | none => t.getD c 0 := by
  induction p with
  | nil => intro t i c _; rfl
  | cons b rest ih =>
    intro t i c hc
    rw [fillShiftTable, ih (t.set (b % 256) i) (i + 1) c (by rw [List.length_set]; exact hc)]
    cases hs : specRightmostIdx rest c with
    | some j =>
      simp only [specRightmostIdx, hs]
      congr 1
      omega
    | none =>
      simp only [specRightmostIdx, hs]
      by_cases hb : b % 256 = c
      · subst hb
        rw [if_pos rfl, getD_set_self t (b % 256) (i : Int) hc]
        simp
      · rw [if_neg hb, getD_set_other t (b % 256) c (i : Int) hb]

theorem table_length (p : List Nat) : (generateBadCharacterShiftTable p).length = 256 := by
  unfold generateBadCharacterShiftTable
  rw [fillShiftTable_length, List.length_replicate]

theorem table_getD (p : List Nat) (c : Nat) (hc : c < 256) :
    (generateBadCharacterShiftTable p).getD c 0 =
      match specRightmostIdx p c with
      | some j => (j : Int)
      | none => -1 := by
  unfold generateBadCharacterShiftTable
  rw [fillShiftTable_getD p (List.replicate 256 (-1)) 0 c (by rw [List.length_replicate]; exact hc)]
  cases hs : specRightmostIdx p c with
  | some j => simp only [Nat.zero_add]
  | none =>
    simp only []
    rw [List.getD_eq_getElem _ _ (by rw [List.length_replicate]; exact hc)]
    rw [List.getElem_replicate]

theorem specRightmostIdx_some (p : List Nat) (c : Nat) :
    ∀ j, specRightmostIdx p c = some j → j < p.length ∧ p.getD j 0 % 256 = c := by
  induction p with
  | nil => intro j h; exact Option.noConfusion h
  | cons b rest ih =>
    intro j h
    unfold specRightmostIdx at h
    cases hs : specRightmostIdx rest c with
    | some j0 =>
      rw [hs] at h
      obtain rfl : j0 + 1 = j := Option.some.inj h
      obtain ⟨h1, h2⟩ := ih j0 hs
      constructor
      · simpa using Nat.succ_lt_succ h1
      · simpa using h2
    | none =>
      rw [hs] at h
      by_cases hb : b % 256 = c
      · rw [if_pos hb] at h
        obtain rfl : 0 = j := Option.some.inj h
        exact ⟨by simp, by simpa using hb⟩
      · rw [if_neg hb] at h
        exact Option.noConfusion h

theorem specRightmostIdx_ge (p : List Nat) (c : Nat) :
    ∀ k, k < p.length → p.getD k 0 % 256 = c →
      ∃ j, specRightmostIdx p c = some j ∧ k ≤ j := by
  induction p with
  | nil =>
    intro k hk _
    simp at hk
  | cons b rest ih =>
    intro k hk hck
    unfold specRightmostIdx
    cases k with
    | zero =>
      cases hs : specRightmostIdx rest c with
      | some j0 => exact ⟨j0 + 1, rfl, Nat.zero_le _⟩
      | none =>
        rw [if_pos (by simpa using hck)]
        exact ⟨0, rfl, Nat.le_refl 0⟩
    | succ k0 =>
      obtain ⟨j0, hj0, hle⟩ := ih k0 (by simpa using Nat.lt_of_succ_lt_succ hk) (by simpa using hck)
      rw [hj0]
      exact ⟨j0 + 1, rfl, Nat.succ_le_succ hle⟩

theorem specRightmostIdx_none (p : List Nat) (c : Nat) (h : specRightmostIdx p c = none) :
    ∀ k, k < p.length → p.getD k 0 % 256 ≠ c := by
  intro k hk hck
  obtain ⟨j, hj, _⟩ := specRightmostIdx_ge p c k hk hck
  rw [h] at hj
  exact Option.noConfusion hj

theorem signedChar_of_lt (c : Nat) (hc : c < 128) : signedChar c = (c : Int) := by
  unfold signedChar
  rw [Nat.mod_eq_of_lt (by omega), if_pos hc]

/-- Reading the table through `signedChar` at a byte `< 128` hits the real
entry, independently of the out-of-bounds oracle. -/
theorem tableRead_of_lt (p : List Nat) (oobT : Int → Int) (c : Nat) (hc : c < 128) :
    tableRead (generateBadCharacterShiftTable p) oobT (signedChar c) =
      (generateBadCharacterShiftTable p).getD c 0 := by
  rw [signedChar_of_lt c hc]
  have hlen : (generateBadCharacterShiftTable p).length = 256 := table_length p
  have htn : ((c : Int)).toNat = c := rfl
  unfold tableRead
  rw [dif_pos ⟨Int.ofNat_nonneg c, by rw [htn, hlen]; omega⟩]
  rw [← List.getD_eq_get _ 0 (by rw [htn, hlen]; omega), htn]


/-! ## Lemmas about the scan loop -/

/-- `max(1, ...)` makes every shift update strictly increase the shift
(source line 116). -/
theorem advanceShift_lt (s j : Nat) (e : Int) : s < advanceShift s j e := by
  unfold advanceShift
  have h1 : (1 : Int) ≤ max 1 ((j : Int) - e) := le_max_left _ _
  omega

/-- Every table entry is `-1` or a pattern index, so never below `-1`. -/
theorem table_entry_ge (p : List Nat) (c : Nat) (hc : c < 256) :
    -1 ≤ (generateBadCharacterShiftTable p).getD c 0 := by
  rw [table_getD p c hc]
  cases specRightmostIdx p c with
  | none => exact le_refl _
  | some j =>
    show (-1 : Int) ≤ (j : Int)
    omega

/-- If `c` occurs in the pattern at index `k`, the table entry for `c` is
at least `k`. -/
theorem table_entry_of_mem (p : List Nat) (c k : Nat) (hc : c < 256)
    (hk : k < p.length) (hck : p.getD k 0 % 256 = c) :
    (k : Int) ≤ (generateBadCharacterShiftTable p).getD c 0 := by
  obtain ⟨j, hj, hkj⟩ := specRightmostIdx_ge p c k hk hck
  rw [table_getD p c hc, hj]
  show (k : Int) ≤ (j : Int)
  exact_mod_cast hkj

/-- The no-skip property of the bad-character rule: from a shift strictly
left of a match position, the updated shift never jumps past it. -/
theorem advance_le_of_match (p : List Nat) (mem : Nat → Nat) (i0 s j : Nat)
    (hmatch : matchAt mem p i0) (hs : s < i0) (hj : j < p.length)
    (hc : mem (s + j) < 128) :
    advanceShift s j ((generateBadCharacterShiftTable p).getD (mem (s + j)) 0) ≤ i0 := by
  set c := mem (s + j) with hcdef
  set e := (generateBadCharacterShiftTable p).getD c 0 with hedef
  have hem1 : -1 ≤ e := table_entry_ge p c (by omega)
  unfold advanceShift
  rcases Nat.lt_or_ge (s + j) i0 with hlt | hge
  · rcases le_total ((j : Int) - e) 1 with h1 | h1
    · rw [max_eq_left h1]
      omega
    · rw [max_eq_right h1]
      omega
  · have hk : s + j - i0 < p.length := by omega
    have hpk : p.getD (s + j - i0) 0 = c := by
      have := hmatch (s + j - i0) hk
      rw [this]
      congr 1
      omega
    have hke : ((s + j - i0 : Nat) : Int) ≤ e := by
      apply table_entry_of_mem p c (s + j - i0) (by omega) hk
      rw [hpk]
      exact Nat.mod_eq_of_lt (by omega)
    rcases le_total ((j : Int) - e) 1 with h1 | h1
    · rw [max_eq_left h1]
      omega
    · rw [max_eq_right h1]
      omega

/-- Fuel sufficiency for the outer loop: the loop always terminates within
`n + 2 - (s + patternLength)` iterations because the shift strictly
increases. -/
theorem bmLoop_isSome (mem : Nat → Nat) (n : Nat) (p : List Nat) (t : List Int)
    (oobT : Int → Int) :
    ∀ fuel s c, 0 < fuel → n + 2 ≤ fuel + s + p.length →
      (bmLoop mem n p t oobT fuel s c).isSome := by
  intro fuel
  induction fuel with
  | zero =>
    intro s c h0 _
    omega
  | succ fuel ih =>
    intro s c _ hfs
    by_cases hg : s + p.length ≤ n
    · cases hscan : innerScan mem p s with
      | mk o cnt =>
        cases o with
        | none => simp [bmLoop, if_pos hg, hscan]
        | some j =>
          simp only [bmLoop, if_pos hg, hscan]
          have hs2 : s < advanceShift s j (tableRead t oobT (signedChar (mem (s + j)))) :=
            advanceShift_lt _ _ _
          exact ih _ _ (by omega) (by omega)
    · simp [bmLoop, if_neg hg]

/-- Completeness of a scan window: if the pattern matches nowhere in the
window, the loop ends with `found_at = -1`, whatever the table and the
out-of-bounds oracles hold. -/
theorem bmLoop_none (mem : Nat → Nat) (n : Nat) (p : List Nat) (t : List Int)
    (oobT : Int → Int) (hm : 0 < p.length)
    (hno : ∀ i, i + p.length ≤ n → ¬ matchAt mem p i) :
    ∀ fuel s c, 0 < fuel → n + 2 ≤ fuel + s + p.length →
      ∃ cc, bmLoop mem n p t oobT fuel s c = some (none, cc) := by
  intro fuel
  induction fuel with
  | zero =>
    intro s c h0 _
    omega
  | succ fuel ih =>
    intro s c _ hfs
    by_cases hg : s + p.length ≤ n
    · cases hscan : innerScan mem p s with
      | mk o cnt =>
        cases o with
        | none =>
          exact absurd (matchAt_of_innerScan_none mem p s (by rw [hscan])) (hno s hg)
        | some j =>
          simp only [bmLoop, if_pos hg, hscan]
          have hs2 : s < advanceShift s j (tableRead t oobT (signedChar (mem (s + j)))) :=
            advanceShift_lt _ _ _
          exact ih _ _ (by omega) (by omega)
    · exact ⟨c, by simp [bmLoop, if_neg hg]⟩

/-- Soundness and leftmost-ness of a scan window whose bytes up to the
match are 7-bit: starting at or left of the leftmost match position `i0`,
the loop returns exactly `i0`. -/
theorem bmLoop_finds (mem : Nat → Nat) (n : Nat) (p : List Nat) (oobT : Int → Int)
    (i0 : Nat) (hmatch : matchAt mem p i0) (hbound : i0 + p.length ≤ n)
    (hleft : ∀ i, i < i0 → ¬ matchAt mem p i)
    (hascii : ∀ idx, idx < i0 + p.length → mem idx < 128) :
    ∀ fuel s c, s ≤ i0 → 0 < fuel → n + 2 ≤ fuel + s + p.length →
      ∃ cc, bmLoop mem n p (generateBadCharacterShiftTable p) oobT fuel s c
        = some (some i0, cc) := by
  intro fuel
  induction fuel with
  | zero =>
    intro s c _ h0 _
    omega
  | succ fuel ih =>
    intro s c hsi _ hfs
    have hg : s + p.length ≤ n := by omega
    rcases Nat.lt_or_ge s i0 with hlt | hge
    · have hm : 0 < p.length := by
        by_contra h0
        exact hleft s hlt fun j hj => by omega
      obtain ⟨j, hj, hjlt, hjne⟩ := innerScan_some_of_not_match mem p s hm (hleft s hlt)
      cases hscan : innerScan mem p s with
      | mk o cnt =>
      rw [hscan] at hj
      obtain rfl : o = some j := hj
      simp only [bmLoop, if_pos hg, hscan]
      have hcbyte : mem (s + j) < 128 := hascii (s + j) (by omega)
      have hread : tableRead (generateBadCharacterShiftTable p) oobT (signedChar (mem (s + j)))
          = (generateBadCharacterShiftTable p).getD (mem (s + j)) 0 :=
        tableRead_of_lt p oobT (mem (s + j)) hcbyte
      rw [hread]
      have hle : advanceShift s j ((generateBadCharacterShiftTable p).getD (mem (s + j)) 0) ≤ i0 :=
        advance_le_of_match p mem i0 s j hmatch hlt hjlt hcbyte
      have hgt : s < advanceShift s j ((generateBadCharacterShiftTable p).getD (mem (s + j)) 0) :=
        advanceShift_lt _ _ _
      exact ih _ _ hle (by omega) (by omega)
    · obtain rfl : s = i0 := by omega
      have hnone : (innerScan mem p s).1 = none := innerScan_fst_none_of_match mem p s hmatch
      cases hscan : innerScan mem p s with
      | mk o cnt =>
        rw [hscan] at hnone
        subst hnone
        simp [bmLoop, if_pos hg, hscan]

/-- `search` on a window with no match returns `found_at = -1`. -/
theorem search_none (mem : Nat → Nat) (n : Nat) (p : List Nat) (t : List Int)
    (oobT : Int → Int) (hm : 0 < p.length)
    (hno : ∀ i, i + p.length ≤ n → ¬ matchAt mem p i) :
    (search mem n p t oobT).1 = none := by
  obtain ⟨cc, hcc⟩ := bmLoop_none mem n p t oobT hm hno (n + 1) 0 0 (by omega) (by omega)
  unfold search
  rw [hcc]

/-- `search` on a window whose leftmost match is `i0` (and whose bytes up
to it are 7-bit) returns `found_at = i0`. -/
theorem search_finds (mem : Nat → Nat) (n : Nat) (p : List Nat) (oobT : Int → Int)
    (i0 : Nat) (hm : 0 < p.length) (hmatch : matchAt mem p i0)
    (hbound : i0 + p.length ≤ n)
    (hleft : ∀ i, i < i0 → ¬ matchAt mem p i)
    (hascii : ∀ idx, idx < i0 + p.length → mem idx < 128) :
    (search mem n p (generateBadCharacterShiftTable p) oobT).1 = some i0 := by
  obtain ⟨cc, hcc⟩ := bmLoop_finds mem n p oobT i0 hmatch hbound hleft hascii
    (n + 1) 0 0 (Nat.zero_le _) (by omega) (by omega)
  unfold search
  rw [hcc]


/-! ## Lemmas about the coordinator -/

theorem memOf_lt (b : List Nat) (oobM : Nat → Nat) (i : Nat) (h : i < b.length) :
    memOf b oobM i = b.getD i 0 := by
  unfold memOf
  rw [dif_pos h, List.getD_eq_get _ _ h]

theorem matchAt_shift (mem : Nat → Nat) (p : List Nat) (st l : Nat) :
    matchAt (fun x => mem (st + x)) p l ↔ matchAt mem p (st + l) := by
  constructor
  · intro h j hj
    have hx : p.getD j 0 = mem (st + (l + j)) := h j hj
    rwa [show st + (l + j) = st + l + j by omega] at hx
  · intro h j hj
    show p.getD j 0 = mem (st + (l + j))
    have hx : p.getD j 0 = mem (st + l + j) := h j hj
    rwa [show st + l + j = st + (l + j) by omega] at hx

theorem occursAt_matchAt (b : List Nat) (oobM : Nat → Nat) (p : List Nat) (i : Nat)
    (h : occursAt b p i) : matchAt (memOf b oobM) p i := by
  intro j hj
  rw [memOf_lt b oobM (i + j) (by have := h.1; omega)]
  exact h.2 j hj

theorem matchAt_occursAt (b : List Nat) (oobM : Nat → Nat) (p : List Nat) (i : Nat)
    (hb : i + p.length ≤ b.length) (h : matchAt (memOf b oobM) p i) : occursAt b p i := by
  refine ⟨hb, fun j hj => ?_⟩
  rw [← memOf_lt b oobM (i + j) (by omega)]
  exact h j hj

theorem firstFound_eq_some (rs : List (Option Nat × Nat)) :
    ∀ start k l, k < rs.length → (rs.getD k (none, 0)).1 = some l →
      (∀ k2, k2 < k → (rs.getD k2 (none, 0)).1 = none) →
      firstFound start rs = some (start + k, l) := by
  induction rs with
  | nil =>
    intro start k l hk _ _
    simp at hk
  | cons r rest ih =>
    intro start k l hk hl hprev
    cases k with
    | zero =>
      have hr : r.1 = some l := hl
      simp only [firstFound, hr]
      simp
    | succ k0 =>
      have hr : r.1 = none := hprev 0 (Nat.succ_pos k0)
      simp only [firstFound, hr]
      have := ih (start + 1) k0 l (by rw [List.length_cons] at hk; omega) hl
        (fun k2 hk2 => hprev (k2 + 1) (Nat.succ_lt_succ hk2))
      rw [this, show start + 1 + k0 = start + (k0 + 1) by omega]

theorem firstFound_eq_none (rs : List (Option Nat × Nat)) :
    ∀ start, (∀ k, k < rs.length → (rs.getD k (none, 0)).1 = none) →
      firstFound start rs = none := by
  induction rs with
  | nil => intro start _; rfl
  | cons r rest ih =>
    intro start hall
    have hr : r.1 = none := hall 0 (by simp)
    simp only [firstFound, hr]
    exact ih (start + 1) fun k hk => hall (k + 1) (by rw [List.length_cons]; omega)

theorem getD_range_map (f : Nat → Option Nat × Nat) (nt k : Nat) (hk : k < nt) :
    ((List.range nt).map f).getD k (none, 0) = f k := by
  rw [List.getD_eq_getElem _ _ (by simpa using hk)]
  rw [List.getElem_map, List.getElem_range]

theorem searchCore_valid (mem : Nat → Nat) (n : Nat) (p : List Nat) (oobT : Int → Int)
    (hn : 0 < n) (hp : 0 < p.length) (hpn : p.length ≤ n) :
    searchCore mem n p oobT =
      match firstFound 0
        ((List.range (numThreadsOf n p.length)).map
          (chunkScan mem n p (generateBadCharacterShiftTable p) oobT)) with
      | some (k, l) =>
        ⟨.foundMsg p, some (k, l),
          ((((List.range (numThreadsOf n p.length)).map
            (chunkScan mem n p (generateBadCharacterShiftTable p) oobT)).map Prod.snd).sum),
          true, numThreadsOf n p.length, false⟩
      | none =>
        ⟨.notFoundMsg p, none,
          ((((List.range (numThreadsOf n p.length)).map
            (chunkScan mem n p (generateBadCharacterShiftTable p) oobT)).map Prod.snd).sum),
          true, numThreadsOf n p.length, true⟩ := by
  unfold searchCore
  rw [if_neg (by omega), if_neg (by omega), if_neg (by omega)]

theorem searchCore_found (mem : Nat → Nat) (n : Nat) (p : List Nat) (oobT : Int → Int)
    (hn : 0 < n) (hp : 0 < p.length) (hpn : p.length ≤ n) (k l : Nat)
    (hk : k < numThreadsOf n p.length)
    (hl : (chunkScan mem n p (generateBadCharacterShiftTable p) oobT k).1 = some l)
    (hprev : ∀ k2, k2 < k →
      (chunkScan mem n p (generateBadCharacterShiftTable p) oobT k2).1 = none) :
    (searchCore mem n p oobT).found = some (k, l) ∧
      (searchCore mem n p oobT).output = .foundMsg p ∧
      (searchCore mem n p oobT).released = false := by
  have hff : firstFound 0
      ((List.range (numThreadsOf n p.length)).map
        (chunkScan mem n p (generateBadCharacterShiftTable p) oobT)) = some (0 + k, l) := by
    apply firstFound_eq_some
    · rw [List.length_map, List.length_range]
      exact hk
    · rw [getD_range_map _ _ _ hk]
      exact hl
    · intro k2 hk2
      rw [getD_range_map _ _ _ (by omega)]
      exact hprev k2 hk2
  rw [searchCore_valid mem n p oobT hn hp hpn, hff]
  exact ⟨by simp, rfl, rfl⟩

theorem searchCore_notFound (mem : Nat → Nat) (n : Nat) (p : List Nat) (oobT : Int → Int)
    (hn : 0 < n) (hp : 0 < p.length) (hpn : p.length ≤ n)
    (hall : ∀ k, k < numThreadsOf n p.length →
      (chunkScan mem n p (generateBadCharacterShiftTable p) oobT k).1 = none) :
    (searchCore mem n p oobT).output = .notFoundMsg p ∧
      (searchCore mem n p oobT).found = none ∧
      (searchCore mem n p oobT).released = true := by
  have hff : firstFound 0
      ((List.range (numThreadsOf n p.length)).map
        (chunkScan mem n p (generateBadCharacterShiftTable p) oobT)) = none := by
    apply firstFound_eq_none
    intro k hk
    rw [List.length_map, List.length_range] at hk
    rw [getD_range_map _ _ _ hk]
    exact hall k hk
  rw [searchCore_valid mem n p oobT hn hp hpn, hff]
  exact ⟨rfl, rfl, rfl⟩

/-- With 16 workers every chunk ends at or before the end of the buffer
(the last chunk ends exactly at `n`). -/
theorem chunkEnd_le (n m k : Nat) (h : ¬ (n / 16 < m)) (hk : k < 16) :
    chunkStart n m k + chunkLen n m k ≤ n := by
  have hdm : 16 * (n / 16) + n % 16 = n := Nat.div_add_mod n 16
  have hmul : k * (n / 16) + n / 16 = (k + 1) * (n / 16) := by ring
  have hmul2 : (k + 1) * (n / 16) ≤ 16 * (n / 16) := Nat.mul_le_mul_right _ (by omega)
  unfold chunkStart chunkLen chunkSizeOf numThreadsOf
  simp only [if_neg h]
  by_cases h15 : k = 16 - 1
  · rw [if_pos h15]
    subst h15
    omega
  · rw [if_neg h15]
    omega

/-- With 16 workers the chunk geometry in the single-thread fallback:
one chunk starting at 0 with window `n + n % 16`. -/
theorem chunk_single (n m : Nat) (h : n / 16 < m) :
    numThreadsOf n m = 1 ∧ chunkStart n m 0 = 0 ∧ chunkLen n m 0 = n + n % 16 := by
  unfold numThreadsOf chunkStart chunkLen chunkSizeOf numThreadsOf
  rw [if_pos h]
  refine ⟨rfl, by omega, ?_⟩
  rw [if_pos (by omega), if_pos h]


theorem getD_take (l : List Nat) (n i : Nat) (h : i < n) (hn : n ≤ l.length) :
    (l.take n).getD i 0 = l.getD i 0 := by
  rw [List.getD_eq_getElem _ _ (by rw [List.length_take]; omega),
      List.getD_eq_getElem _ _ (by omega)]
  exact List.getElem_take ..

theorem effLen_le (content : List Nat) : effLen content ≤ content.length :=
  (content.takeWhile_sublist _).length_le

theorem getD_lt_of_all (b : List Nat) (idx bound : Nat) (h : idx < b.length)
    (hall : ∀ x ∈ b, x < bound) : b.getD idx 0 < bound := by
  rw [List.getD_eq_getElem _ _ h]
  exact hall _ (List.getElem_mem h)

theorem memOf_lt_of_all (b : List Nat) (oobM : Nat → Nat) (idx bound : Nat)
    (h : idx < b.length) (hall : ∀ x ∈ b, x < bound) : memOf b oobM idx < bound := by
  rw [memOf_lt b oobM idx h]
  exact getD_lt_of_all b idx bound h hall

/-- With 16 workers, every chunk except the last has length `n / 16`. -/
theorem chunkLen_mid (n m k : Nat) (h : ¬ (n / 16 < m)) (hk : k ≠ 15) :
    chunkLen n m k = n / 16 := by
  unfold chunkLen numThreadsOf chunkSizeOf
  simp only [if_neg h]
  rw [if_neg (by omega)]

/-- With 16 workers, an earlier chunk ends at or before a later chunk
starts. -/
theorem chunkEnd_le_start (n m k2 kM : Nat) (h : ¬ (n / 16 < m)) (h2 : k2 < kM)
    (hM : kM ≤ 15) :
    chunkStart n m k2 + chunkLen n m k2 ≤ chunkStart n m kM := by
  have hlen : chunkLen n m k2 = n / 16 := chunkLen_mid n m k2 h (by omega)
  have hmul : k2 * (n / 16) + n / 16 = (k2 + 1) * (n / 16) := by ring
  have hmul2 : (k2 + 1) * (n / 16) ≤ kM * (n / 16) := Nat.mul_le_mul_right _ (by omega)
  rw [hlen]
  unfold chunkStart chunkSizeOf
  simp only [if_neg h]
  omega

/-- A chunk scan reports `found_at = -1` when the pattern matches nowhere
inside its window, for any table contents and oracles. -/
theorem chunkScan_none (mem : Nat → Nat) (n : Nat) (p : List Nat) (t : List Int)
    (oobT : Int → Int) (k : Nat) (hp : 0 < p.length)
    (hno : ∀ l, l + p.length ≤ chunkLen n p.length k →
      ¬ matchAt mem p (chunkStart n p.length k + l)) :
    (chunkScan mem n p t oobT k).1 = none := by
  unfold chunkScan
  apply search_none _ _ _ _ _ hp
  intro l hl hm
  exact hno l hl ((matchAt_shift mem p _ l).1 hm)

/-- A chunk scan returns the leftmost in-window match position, provided
the bytes it can inspect before reaching it are 7-bit. -/
theorem chunkScan_finds (mem : Nat → Nat) (n : Nat) (p : List Nat) (oobT : Int → Int)
    (k l0 : Nat) (hp : 0 < p.length)
    (hmatch : matchAt mem p (chunkStart n p.length k + l0))
    (hbound : l0 + p.length ≤ chunkLen n p.length k)
    (hleft : ∀ l, l < l0 → ¬ matchAt mem p (chunkStart n p.length k + l))
    (hascii : ∀ idx, idx < chunkStart n p.length k + (l0 + p.length) → mem idx < 128) :
    (chunkScan mem n p (generateBadCharacterShiftTable p) oobT k).1 = some l0 := by
  unfold chunkScan
  apply search_finds _ _ _ _ l0 hp
  · exact (matchAt_shift mem p _ l0).2 hmatch
  · exact hbound
  · intro l hl hm
    exact hleft l hl ((matchAt_shift mem p _ l).1 hm)
  · intro idx hidx
    exact hascii _ (by omega)


/-! ## Claim theorems -/

/-- C2: for every non-empty pattern of bytes, the bad-character table maps
every byte value `c < 256` to the greatest pattern index holding `c`, or to
the sentinel `-1` when `c` does not occur; the builder is a pure Lean
function of the pattern, so determinism and absence of side effects hold by
construction. -/
theorem C2_table_rightmost (p : List Nat) (c : Nat) (hm : 0 < p.length) (hc : c < 256)
    (hbytes : ∀ x ∈ p, x < 256) :
    (∃ j, j < p.length ∧ p.getD j 0 = c ∧
        (∀ k, k < p.length → p.getD k 0 = c → k ≤ j) ∧
        (generateBadCharacterShiftTable p).getD c 0 = (j : Int)) ∨
      ((∀ k, k < p.length → p.getD k 0 ≠ c) ∧
        (generateBadCharacterShiftTable p).getD c 0 = -1) := by
  have hmod : ∀ k, k < p.length → p.getD k 0 % 256 = p.getD k 0 := fun k hk =>
    Nat.mod_eq_of_lt (getD_lt_of_all p k 256 hk hbytes)
  cases hs : specRightmostIdx p c with
  | some j =>
    left
    obtain ⟨hjlt, hjc⟩ := specRightmostIdx_some p c j hs
    refine ⟨j, hjlt, by rw [← hmod j hjlt]; exact hjc, ?_, ?_⟩
    · intro k hk hkc
      obtain ⟨j2, hj2, hkj2⟩ := specRightmostIdx_ge p c k hk (by rw [hmod k hk, hkc])
      rw [hs] at hj2
      obtain rfl : j = j2 := Option.some.inj hj2
      exact hkj2
    · rw [table_getD p c hc, hs]
  | none =>
    right
    refine ⟨?_, ?_⟩
    · intro k hk hkc
      exact specRightmostIdx_none p c hs k hk (by rw [hmod k hk, hkc])
    · rw [table_getD p c hc, hs]

theorem C2_witness :
    (∃ j, j < ([97, 98, 97] : List Nat).length ∧ ([97, 98, 97] : List Nat).getD j 0 = 97 ∧
        (∀ k, k < ([97, 98, 97] : List Nat).length →
          ([97, 98, 97] : List Nat).getD k 0 = 97 → k ≤ j) ∧
        (generateBadCharacterShiftTable [97, 98, 97]).getD 97 0 = (j : Int)) ∨
      ((∀ k, k < ([97, 98, 97] : List Nat).length →
          ([97, 98, 97] : List Nat).getD k 0 ≠ 97) ∧
        (generateBadCharacterShiftTable [97, 98, 97]).getD 97 0 = -1) :=
  C2_table_rightmost [97, 98, 97] 97 (by decide) (by decide) (by decide)

/-- C4: on the failing input buffer length 10, pattern length 2, the
coordinator falls back to one worker but still adds `extra = 10 % 16` to
the single chunk, so the chunk is `[0, 20)` instead of the claimed exact
partition of `[0, 10)`: the chunks do not partition the buffer. -/
theorem C4_fallback_overshoot :
    numThreadsOf 10 2 = 1 ∧ chunkStart 10 2 0 = 0 ∧ chunkLen 10 2 0 = 20 ∧
      chunkStart 10 2 0 + chunkLen 10 2 0 ≠ 10 := by decide

/-- C5: the three validation paths return before the table is built, before
any worker is dispatched, with zero byte comparisons and (empty buffer /
empty pattern) the corresponding error message; an oversized pattern gives
the distinct non-erroneous too-long report. -/
theorem C5_validation :
    (∀ (p : List Nat) (oobM : Nat → Nat) (oobT : Int → Int),
        searchBuffer [] p oobM oobT = ⟨.errFileEmpty, none, 0, false, 0, false⟩) ∧
      (∀ (b : List Nat) (oobM : Nat → Nat) (oobT : Int → Int), 0 < b.length →
        searchBuffer b [] oobM oobT = ⟨.errPatternEmpty, none, 0, false, 0, false⟩) ∧
      (∀ (b p : List Nat) (oobM : Nat → Nat) (oobT : Int → Int),
        0 < b.length → b.length < p.length →
        searchBuffer b p oobM oobT = ⟨.tooLongMsg, none, 0, false, 0, false⟩) := by
  refine ⟨fun p oobM oobT => rfl, ?_, ?_⟩
  · intro b oobM oobT hb
    unfold searchBuffer searchCore
    rw [if_neg (by omega)]
    rfl
  · intro b p oobM oobT hb hbp
    unfold searchBuffer searchCore
    rw [if_neg (by omega), if_neg (by omega), if_pos (by omega)]

theorem C5_witness :
    searchBuffer [] [97] (fun _ => 0) (fun _ => 0)
        = ⟨.errFileEmpty, none, 0, false, 0, false⟩ ∧
      searchBuffer [97] [] (fun _ => 0) (fun _ => 0)
        = ⟨.errPatternEmpty, none, 0, false, 0, false⟩ ∧
      searchBuffer [97] [97, 98] (fun _ => 0) (fun _ => 0)
        = ⟨.tooLongMsg, none, 0, false, 0, false⟩ :=
  ⟨C5_validation.1 [97] (fun _ => 0) (fun _ => 0),
   C5_validation.2.1 [97] (fun _ => 0) (fun _ => 0) (by decide),
   C5_validation.2.2 [97] [97, 98] (fun _ => 0) (fun _ => 0) (by decide) (by decide)⟩

/-- C7: the scan indexes the shift table with the signed `char` value of
the text byte; byte 200 yields index `-56`, outside `[0, 256)`, and the
scan result genuinely depends on what that out-of-bounds read returns: on
chunk `[200, 97]` with pattern `"a"`, oracle value `0` lets the scan find
the match at offset 1 while oracle value `-5` makes it skip past the
buffer and miss it. -/
theorem C7_signed_index_oob :
    signedChar 200 = -56 ∧
      (search (memOf [200, 97] (fun _ => 0)) 2 [97] (generateBadCharacterShiftTable [97])
        (fun _ => 0)).1 = some 1 ∧
      (search (memOf [200, 97] (fun _ => 0)) 2 [97] (generateBadCharacterShiftTable [97])
        (fun _ => -5)).1 = none := by decide

/-- C8: the scan loop always terminates: the shift update is strictly
increasing (first conjunct), and the outer loop with fuel `n + 1` never
exhausts its fuel, for every memory, window length, pattern, table
contents and out-of-bounds oracle (second conjunct). -/
theorem C8_termination :
    (∀ (s j : Nat) (e : Int), s < advanceShift s j e) ∧
      (∀ (mem : Nat → Nat) (n : Nat) (p : List Nat) (t : List Int) (oobT : Int → Int),
        (bmLoop mem n p t oobT (n + 1) 0 0).isSome) := by
  constructor
  · exact advanceShift_lt
  · intro mem n p t oobT
    by_cases hp : p.length = 0
    · have hg : 0 + p.length ≤ n := by omega
      have h0 : innerScan mem p 0 = (none, 0) := by
        unfold innerScan
        rw [if_pos hp]
      simp [bmLoop, h0, hp]
    · exact bmLoop_isSome mem n p t oobT (n + 1) 0 0 (by omega) (by omega)

/-- C9: the found exit (source line 327) and the validation exits (lines
235, 239, 244) return without `UnmapViewOfFile`/`CloseHandle`; only the
not-found exit releases the resources.  Evaluated on concrete runs of each
path. -/
theorem C9_resources_leaked :
    (searchBuffer [97] [97] (fun _ => 0) (fun _ => 0)).output = .foundMsg [97] ∧
      (searchBuffer [97] [97] (fun _ => 0) (fun _ => 0)).released = false ∧
      (searchBuffer [] [97] (fun _ => 0) (fun _ => 0)).output = .errFileEmpty ∧
      (searchBuffer [] [97] (fun _ => 0) (fun _ => 0)).released = false ∧
      (searchBuffer [97, 98] [99] (fun _ => 0) (fun _ => 0)).output = .notFoundMsg [99] ∧
      (searchBuffer [97, 98] [99] (fun _ => 0) (fun _ => 0)).released = true := by decide

/-- C1 counterexample: buffer `[200, 97]` (byte 0xC8 then `'a'`), pattern
`"a"`: the pattern occurs at offset 1, fully inside the single chunk, yet
because byte 200 drives a negative table index, the out-of-bounds read can
return `-5`, making the scan skip past the occurrence and the whole search
report not-found instead of `Found 1`. -/
theorem C1_counterexample :
    occursAt [200, 97] [97] 1 ∧ nonStraddling 2 1 1 ∧
      (searchBuffer [200, 97] [97] (fun _ => 0) (fun _ => -5)).found = none ∧
      (searchBuffer [200, 97] [97] (fun _ => 0) (fun _ => -5)).output
        = .notFoundMsg [97] := by decide

/-- C6 counterexample: two buffers whose leftmost matches sit at different
absolute offsets (0 and 1) produce byte-for-byte identical outputs, so the
sink message cannot contain the absolute offset the claim says it
reports. -/
theorem C6_counterexample :
    (searchBuffer [97, 98, 120, 120] [97, 98] (fun _ => 0) (fun _ => 0)).output =
        (searchBuffer [120, 97, 98, 120] [97, 98] (fun _ => 0) (fun _ => 0)).output ∧
      (searchBuffer [97, 98, 120, 120] [97, 98] (fun _ => 0) (fun _ => 0)).found
        = some (0, 0) ∧
      (searchBuffer [120, 97, 98, 120] [97, 98] (fun _ => 0) (fun _ => 0)).found
        = some (0, 1) ∧
      occursAt [97, 98, 120, 120] [97, 98] 0 ∧
      occursAt [120, 97, 98, 120] [97, 98] 1 := by decide

/-- C10 counterexample: file bytes `"xy\0a"`: `strlen` gives effective
length 2, but the single-worker fallback window is `2 + 2 % 16 = 4`, so the
scan reads past the NUL and reports the occurrence of `"a"` at offset 3 —
an occurrence located entirely after the first NUL byte is found. -/
theorem C10_counterexample :
    effLen [120, 121, 0, 97] = 2 ∧
      (searchInFile [120, 121, 0, 97] [97] (fun _ => 0) (fun _ => 0)).output
        = .foundMsg [97] ∧
      (searchInFile [120, 121, 0, 97] [97] (fun _ => 0) (fun _ => 0)).found
        = some (0, 3) := by decide


/-- C6 (amended): whenever some chunk reports Found, the outcome is decided
by the lowest-indexed chunk reporting Found — the coordinator returns that
chunk's `(threadIndex, found_at)` pair and sends the found message, which
carries the pattern (and the elapsed time) but no offset: the absolute
offset `start_offset + local_offset` is never computed or reported.  If no
chunk reports Found, the sink receives the not-found message. -/
theorem C6_lowest_chunk (b p : List Nat) (oobM : Nat → Nat) (oobT : Int → Int)
    (hb : 0 < b.length) (hp : 0 < p.length) (hpb : p.length ≤ b.length) :
    (∀ k l, k < numThreadsOf b.length p.length →
        (chunkScan (memOf b oobM) b.length p (generateBadCharacterShiftTable p) oobT k).1
          = some l →
        (∀ k2, k2 < k →
          (chunkScan (memOf b oobM) b.length p (generateBadCharacterShiftTable p) oobT k2).1
            = none) →
        (searchBuffer b p oobM oobT).found = some (k, l) ∧
          (searchBuffer b p oobM oobT).output = .foundMsg p) ∧
      ((∀ k, k < numThreadsOf b.length p.length →
          (chunkScan (memOf b oobM) b.length p (generateBadCharacterShiftTable p) oobT k).1
            = none) →
        (searchBuffer b p oobM oobT).found = none ∧
          (searchBuffer b p oobM oobT).output = .notFoundMsg p) := by
  constructor
  · intro k l hk hl hprev
    obtain ⟨h1, h2, _⟩ :=
      searchCore_found (memOf b oobM) b.length p oobT hb hp hpb k l hk hl hprev
    exact ⟨h1, h2⟩
  · intro hall
    obtain ⟨h1, h2, _⟩ :=
      searchCore_notFound (memOf b oobM) b.length p oobT hb hp hpb hall
    exact ⟨h2, h1⟩

theorem C6_witness :
    (searchBuffer [97, 98, 120, 120] [97, 98] (fun _ => 0) (fun _ => 0)).found
        = some (0, 0) ∧
      (searchBuffer [97, 98, 120, 120] [97, 98] (fun _ => 0) (fun _ => 0)).output
        = .foundMsg [97, 98] :=
  (C6_lowest_chunk [97, 98, 120, 120] [97, 98] (fun _ => 0) (fun _ => 0)
    (by decide) (by decide) (by decide)).1 0 0 (by decide) (by decide)
    (fun k2 hk2 => absurd hk2 (Nat.not_lt_zero k2))

/-- C3: when the worker count is 16 (the pattern fits in `n / 16`) and the
pattern occurs in the buffer only at offsets straddling a chunk boundary,
the search reports not-found — independently of the out-of-bounds oracles,
because a 16-worker scan stays inside the buffer and can only report a
verified in-chunk match. -/
theorem C3_straddle_not_found (b p : List Nat) (oobM : Nat → Nat) (oobT : Int → Int)
    (hp : 0 < p.length) (hT : p.length ≤ b.length / 16)
    (hocc : ∃ i, occursAt b p i)
    (hstraddle : ∀ i, i < b.length → occursAt b p i →
      ¬ nonStraddling b.length p.length i) :
    (searchBuffer b p oobM oobT).output = .notFoundMsg p ∧
      (searchBuffer b p oobM oobT).found = none := by
  have h16 : ¬ (b.length / 16 < p.length) := by omega
  have hmul : p.length * 16 ≤ b.length := (Nat.le_div_iff_mul_le (by omega)).1 hT
  have hb : 0 < b.length := by omega
  have hpb : p.length ≤ b.length := by omega
  have hall : ∀ k, k < numThreadsOf b.length p.length →
      (chunkScan (memOf b oobM) b.length p (generateBadCharacterShiftTable p) oobT k).1
        = none := by
    intro k hk
    have hk16 : k < 16 := by
      have hnt : numThreadsOf b.length p.length = 16 := by
        unfold numThreadsOf
        rw [if_neg h16]
      omega
    apply chunkScan_none _ _ _ _ _ _ hp
    intro l hl hm
    have hend : chunkStart b.length p.length k + chunkLen b.length p.length k ≤ b.length :=
      chunkEnd_le b.length p.length k h16 hk16
    have ho : occursAt b p (chunkStart b.length p.length k + l) :=
      matchAt_occursAt b oobM p _ (by omega) hm
    exact hstraddle _ (by omega) ho ⟨k, hk, by omega, by omega⟩
  obtain ⟨h1, h2, _⟩ :=
    searchCore_notFound (memOf b oobM) b.length p oobT hb hp hpb hall
  exact ⟨h1, h2⟩

theorem C3_witness :
    (searchBuffer ([120, 97, 98, 120] ++ List.replicate 28 120) [97, 98]
        (fun _ => 0) (fun _ => 0)).output = .notFoundMsg [97, 98] ∧
      (searchBuffer ([120, 97, 98, 120] ++ List.replicate 28 120) [97, 98]
        (fun _ => 0) (fun _ => 0)).found = none :=
  C3_straddle_not_found ([120, 97, 98, 120] ++ List.replicate 28 120) [97, 98]
    (fun _ => 0) (fun _ => 0) (by decide) (by decide) ⟨1, by decide⟩ (by decide)

/-- C10 (amended): the searched length is the distance to the first NUL
byte of the mapped content: a file whose first byte is NUL is reported as
empty; with 16 workers the scans stay inside the effective prefix, so when
the pattern does not occur in that prefix the search reports not-found no
matter what (including occurrences of the pattern after the NUL).  In the
single-worker fallback the window extends `n % 16` bytes past the
effective length, and an occurrence there can be found
(`C10_counterexample`). -/
theorem C10_effective_length :
    (∀ (content p : List Nat) (oobM : Nat → Nat) (oobT : Int → Int),
        0 < content.length → content.getD 0 0 = 0 →
        (searchInFile content p oobM oobT).output = .errFileEmpty) ∧
      (∀ (content p : List Nat) (oobM : Nat → Nat) (oobT : Int → Int),
        0 < p.length → p.length ≤ effLen content / 16 →
        (∀ i, i < effLen content → ¬ occursAt (content.take (effLen content)) p i) →
        (searchInFile content p oobM oobT).output = .notFoundMsg p ∧
          (searchInFile content p oobM oobT).found = none) := by
  constructor
  · intro content p oobM oobT hlen h0
    cases content with
    | nil => simp at hlen
    | cons c0 rest =>
      have hc0 : c0 = 0 := h0
      subst hc0
      rfl
  · intro content p oobM oobT hp hT hno
    have h16 : ¬ (effLen content / 16 < p.length) := by omega
    have hmul : p.length * 16 ≤ effLen content := (Nat.le_div_iff_mul_le (by omega)).1 hT
    have hn : 0 < effLen content := by omega
    have hpn : p.length ≤ effLen content := by omega
    have hle : effLen content ≤ content.length := effLen_le content
    have hall : ∀ k, k < numThreadsOf (effLen content) p.length →
        (chunkScan (memOf content oobM) (effLen content) p
          (generateBadCharacterShiftTable p) oobT k).1 = none := by
      intro k hk
      have hk16 : k < 16 := by
        have hnt : numThreadsOf (effLen content) p.length = 16 := by
          unfold numThreadsOf
          rw [if_neg h16]
        omega
      apply chunkScan_none _ _ _ _ _ _ hp
      intro l hl hm
      have hend : chunkStart (effLen content) p.length k
          + chunkLen (effLen content) p.length k ≤ effLen content :=
        chunkEnd_le (effLen content) p.length k h16 hk16
      apply hno (chunkStart (effLen content) p.length k + l) (by omega)
      refine ⟨by rw [List.length_take]; omega, ?_⟩
      intro j hj
      have hmj := hm j hj
      rw [memOf_lt content oobM _ (by omega)] at hmj
      rw [getD_take content (effLen content) _ (by omega) hle]
      exact hmj
    obtain ⟨h1, h2, _⟩ := searchCore_notFound (memOf content oobM) (effLen content) p oobT
      hn hp hpn hall
    exact ⟨h1, h2⟩

theorem C10_witness :
    (searchInFile [0, 97] [97] (fun _ => 0) (fun _ => 0)).output = .errFileEmpty ∧
      (searchInFile (List.replicate 32 120 ++ [0, 97, 98]) [97, 98] (fun _ => 0)
          (fun _ => 0)).output = .notFoundMsg [97, 98] ∧
      (searchInFile (List.replicate 32 120 ++ [0, 97, 98]) [97, 98] (fun _ => 0)
          (fun _ => 0)).found = none :=
  ⟨C10_effective_length.1 [0, 97] [97] (fun _ => 0) (fun _ => 0) (by decide) (by decide),
   (C10_effective_length.2 (List.replicate 32 120 ++ [0, 97, 98]) [97, 98] (fun _ => 0)
      (fun _ => 0) (by decide) (by decide) (by decide)).1,
   (C10_effective_length.2 (List.replicate 32 120 ++ [0, 97, 98]) [97, 98] (fun _ => 0)
      (fun _ => 0) (by decide) (by decide) (by decide)).2⟩

/-- C1 (amended to buffers of 7-bit bytes): if every buffer byte is
`< 128` (so the signed-char table lookups stay in bounds) and the pattern
occurs somewhere fully inside a single chunk, the coordinator's found slot
holds a `(threadIndex, found_at)` pair whose absolute position
`chunkStart + found_at` is an occurrence of the pattern, lies fully inside
one chunk, and is the leftmost such occurrence. -/
theorem C1_leftmost (b p : List Nat) (oobM : Nat → Nat) (oobT : Int → Int)
    (hb : 0 < b.length) (hp : 0 < p.length) (hpb : p.length ≤ b.length)
    (hascii : ∀ x ∈ b, x < 128)
    (hocc : ∃ i, occursAt b p i ∧ nonStraddling b.length p.length i) :
    ∃ k l, (searchBuffer b p oobM oobT).found = some (k, l) ∧
      occursAt b p (chunkStart b.length p.length k + l) ∧
      nonStraddling b.length p.length (chunkStart b.length p.length k + l) ∧
      ∀ i2, i2 < chunkStart b.length p.length k + l → occursAt b p i2 →
        ¬ nonStraddling b.length p.length i2 := by
  have hQ0 : occursAt b p (Nat.find hocc)
      ∧ nonStraddling b.length p.length (Nat.find hocc) := Nat.find_spec hocc
  have hmin : ∀ i, i < Nat.find hocc →
      ¬ (occursAt b p i ∧ nonStraddling b.length p.length i) :=
    fun i h => Nat.find_min hocc h
  have hasciiMem : ∀ idx, idx < b.length → memOf b oobM idx < 128 :=
    fun idx h => memOf_lt_of_all b oobM idx 128 h hascii
  have hbound0 : Nat.find hocc + p.length ≤ b.length := hQ0.1.1
  have hminBS : ∀ i2, i2 < Nat.find hocc → occursAt b p i2 →
      ¬ nonStraddling b.length p.length i2 :=
    fun i2 hlt ho hns => hmin i2 hlt ⟨ho, hns⟩
  by_cases hcase : b.length / 16 < p.length
  · obtain ⟨hnt, hst, hlen⟩ := chunk_single b.length p.length hcase
    have hfind : (chunkScan (memOf b oobM) b.length p (generateBadCharacterShiftTable p)
        oobT 0).1 = some (Nat.find hocc) := by
      apply chunkScan_finds _ _ _ _ _ _ hp
      · rw [hst, Nat.zero_add]
        exact occursAt_matchAt b oobM p _ hQ0.1
      · rw [hlen]
        omega
      · intro l hl hm
        rw [hst, Nat.zero_add] at hm
        have ho : occursAt b p l := matchAt_occursAt b oobM p l (by omega) hm
        refine hmin l hl ⟨ho, 0, ?_, ?_, ?_⟩
        · rw [hnt]
          omega
        · rw [hst]
          omega
        · rw [hst, hlen]
          omega
      · intro idx hidx
        rw [hst, Nat.zero_add] at hidx
        exact hasciiMem idx (by omega)
    obtain ⟨h1, h2, _⟩ := searchCore_found (memOf b oobM) b.length p oobT hb hp hpb 0
      (Nat.find hocc) (by rw [hnt]; omega) hfind
      (fun k2 hk2 => absurd hk2 (Nat.not_lt_zero k2))
    refine ⟨0, Nat.find hocc, h1, ?_, ?_, ?_⟩
    · rw [hst, Nat.zero_add]
      exact hQ0.1
    · rw [hst, Nat.zero_add]
      exact hQ0.2
    · rw [hst, Nat.zero_add]
      exact hminBS
  · have hnt : numThreadsOf b.length p.length = 16 := by
      unfold numThreadsOf
      rw [if_neg hcase]
    obtain ⟨kM, hkM, hstle, hend⟩ := hQ0.2
    have hkM15 : kM ≤ 15 := by rw [hnt] at hkM; omega
    have hl0 : chunkStart b.length p.length kM
        + (Nat.find hocc - chunkStart b.length p.length kM) = Nat.find hocc := by omega
    have hprev : ∀ k2, k2 < kM → (chunkScan (memOf b oobM) b.length p
        (generateBadCharacterShiftTable p) oobT k2).1 = none := by
      intro k2 hk2
      apply chunkScan_none _ _ _ _ _ _ hp
      intro l hl hm
      have hend2 : chunkStart b.length p.length k2 + chunkLen b.length p.length k2
          ≤ b.length := chunkEnd_le b.length p.length k2 hcase (by omega)
      have hgap : chunkStart b.length p.length k2 + chunkLen b.length p.length k2
          ≤ chunkStart b.length p.length kM :=
        chunkEnd_le_start b.length p.length k2 kM hcase hk2 hkM15
      have ho : occursAt b p (chunkStart b.length p.length k2 + l) :=
        matchAt_occursAt b oobM p _ (by omega) hm
      refine hmin _ (by omega) ⟨ho, k2, ?_, ?_, ?_⟩
      · rw [hnt]
        omega
      · omega
      · omega
    have hfind : (chunkScan (memOf b oobM) b.length p (generateBadCharacterShiftTable p)
        oobT kM).1 = some (Nat.find hocc - chunkStart b.length p.length kM) := by
      apply chunkScan_finds _ _ _ _ _ _ hp
      · rw [hl0]
        exact occursAt_matchAt b oobM p _ hQ0.1
      · omega
      · intro l hl hm
        have ho : occursAt b p (chunkStart b.length p.length kM + l) :=
          matchAt_occursAt b oobM p _ (by omega) hm
        refine hmin _ (by omega) ⟨ho, kM, hkM, ?_, ?_⟩
        · omega
        · omega
      · intro idx hidx
        exact hasciiMem idx (by omega)
    obtain ⟨h1, h2, _⟩ := searchCore_found (memOf b oobM) b.length p oobT hb hp hpb kM
      (Nat.find hocc - chunkStart b.length p.length kM) hkM hfind hprev
    refine ⟨kM, Nat.find hocc - chunkStart b.length p.length kM, h1, ?_, ?_, ?_⟩
    · rw [hl0]
      exact hQ0.1
    · rw [hl0]
      exact hQ0.2
    · rw [hl0]
      exact hminBS

theorem C1_witness :
    ∃ k l, (searchBuffer [120, 97] [97] (fun _ => 0) (fun _ => 0)).found = some (k, l) ∧
      occursAt [120, 97] [97] (chunkStart 2 1 k + l) ∧
      nonStraddling 2 1 (chunkStart 2 1 k + l) ∧
      ∀ i2, i2 < chunkStart 2 1 k + l → occursAt [120, 97] [97] i2 →
        ¬ nonStraddling 2 1 i2 :=
  C1_leftmost [120, 97] [97] (fun _ => 0) (fun _ => 0) (by decide) (by decide)
    (by decide) (by decide) ⟨1, by decide, by decide⟩

end SubstringSearch
